import Mathlib

/-!
Verification of the classic snowflake ID generator (src/snowflake.go).

The Go code is shallowly embedded: `int64` values are modelled as `Int`
together with explicit two's-complement wrapping (`wrap64`, `shl64`, `or64`)
at every operation where the source performs 64-bit machine arithmetic.
The wall clock (`g.now()`, i.e. `time.Now().UnixMilli()`) is modelled as a
list of pending millisecond readings: each call to the clock consumes the
head of the list, and an empty list means the next clock read blocks forever
(`Generate` then returns `none`, modelling non-termination, never an error).
-/

namespace Snowflake

set_option maxRecDepth 8000

/-! ### Constants (src/snowflake.go, `const` block) -/

def sequenceIDBits : Nat := 12
def machineIDBits : Nat := 5
def idcIDBits : Nat := 5
def machineIDShift : Nat := sequenceIDBits
def idcIDShift : Nat := machineIDBits + machineIDShift
def unixMilliShift : Nat := idcIDBits + idcIDShift

/-- Go bitwise complement `^x` on untyped (arbitrary-precision) constants. -/
def goNot (x : Int) : Int := -x - 1

/-- Go `^(-1 << sequenceIDBits)`; untyped constant arithmetic is exact. -/
def maxSequenceID : Int := goNot (-1 * 2 ^ sequenceIDBits)

def maxMachineID : Int := goNot (-1 * 2 ^ machineIDBits)

def maxIDCID : Int := goNot (-1 * 2 ^ idcIDBits)

/-- The epoch constant of the source: `epoch = 1669046400000`. -/
def epoch : Int := 1669046400000

/-! ### Two's-complement int64 arithmetic -/

/-- The 64 low bits of an integer, as a natural number (two's complement). -/
def toBits64 (x : Int) : Nat := (x % (2 ^ 64 : Int)).toNat

/-- Reinterpret 64 bits as a signed int64 value. -/
def ofBits64 (n : Nat) : Int := if n < 2 ^ 63 then (n : Int) else (n : Int) - 2 ^ 64

/-- Wrap an integer into the int64 range. -/
def wrap64 (x : Int) : Int := ofBits64 (toBits64 x)

/-- Go `x << n` on int64: shift left with silent overflow. -/
def shl64 (x : Int) (n : Nat) : Int := ofBits64 ((toBits64 x <<< n) % 2 ^ 64)

/-- Go `x | y` on int64: bitwise or on the two's-complement representations. -/
def or64 (x y : Int) : Int := ofBits64 (toBits64 x ||| toBits64 y)

/-- Go `x - y` on int64. -/
def sub64 (x y : Int) : Int := wrap64 (x - y)

/-- Go `x + y` on int64 (used for `g.sequenceID++`). -/
def add64 (x y : Int) : Int := wrap64 (x + y)

/-! ### Data model -/

/-- The `IDGenerator` struct (the mutex only serialises calls and carries no
data, so it is not part of the state). -/
structure IDGenerator where
  lastMilli : Int
  sequenceID : Int
  machineID : Int
  IDCID : Int
deriving DecidableEq, Repr

/-- The three error values declared in the source's `var` block. -/
inductive GoError where
  | ErrInvaildIDCID
  | ErrInvaildMachineID
  | ErrClockBack
deriving DecidableEq, Repr

/-- `NewIDGenerator` (src/snowflake.go lines 45-58). -/
def NewIDGenerator (idcID machineID : Int) : Except GoError IDGenerator :=
  if idcID > maxIDCID ∨ idcID < 0 then
    Except.error GoError.ErrInvaildIDCID
  else if machineID > maxMachineID ∨ machineID < 0 then
    Except.error GoError.ErrInvaildMachineID
  else
    Except.ok { lastMilli := -1, sequenceID := 0, machineID := machineID, IDCID := idcID }

/-- `tilNextMilli` (src/snowflake.go lines 91-96): keep re-reading the clock
while `now <= g.lastMilli`. Returns the final `now` and the readings left,
or `none` when the reading list is exhausted (the real loop would spin). -/
def tilNextMilli (lastMilli : Int) : Int → List Int → Option (Int × List Int)
  | now, [] => if now ≤ lastMilli then none else some (now, [])
  | now, r :: rest =>
    if now ≤ lastMilli then tilNextMilli lastMilli r rest else some (now, r :: rest)

/-- The ID assembly expression of src/snowflake.go line 82:
`(now-epoch)<<unixMilliShift | g.IDCID<<idcIDShift | g.machineID<<machineIDShift | g.sequenceID`,
with every operation performed in int64 arithmetic. -/
def assembleID (now idcID machineID sequenceID : Int) : Int :=
  or64 (or64 (or64 (shl64 (sub64 now epoch) unixMilliShift)
    (shl64 idcID idcIDShift)) (shl64 machineID machineIDShift)) sequenceID

/-- `Generate` (src/snowflake.go lines 61-83). The first list element is the
reading of `g.now()` at the start of the call; `tilNextMilli` consumes
further readings. The result carries the Go pair `(int64, error)`, the
post-state, and the readings that remain; `none` models a call that blocks
forever inside `tilNextMilli`. -/
def Generate (g : IDGenerator) : List Int → Option ((Int × Option GoError) × IDGenerator × List Int)
  | [] => none
  | now :: rest =>
    if now < g.lastMilli then
      some ((-1, some GoError.ErrClockBack), g, rest)
    else if now = g.lastMilli then
      let seq := add64 g.sequenceID 1
      if seq > maxSequenceID then
        match tilNextMilli g.lastMilli now rest with
        | none => none
        | some (now2, rest2) =>
          some ((assembleID now2 g.IDCID g.machineID 0,
            none), { g with sequenceID := 0, lastMilli := now2 }, rest2)
      else
        some ((assembleID now g.IDCID g.machineID seq,
          none), { g with sequenceID := seq, lastMilli := now }, rest)
    else if now > g.lastMilli then
      some ((assembleID now g.IDCID g.machineID 0,
        none), { g with sequenceID := 0, lastMilli := now }, rest)
    else
      some ((assembleID now g.IDCID g.machineID g.sequenceID,
        none), { g with lastMilli := now }, rest)

/-- Run up to `n` successive `Generate` calls against one clock-reading
list, collecting the IDs of the successful calls in order. -/
def runCalls : Nat → IDGenerator → List Int → List Int
  | 0, _, _ => []
  | Nat.succ n, g, clock =>
    match Generate g clock with
    | none => []
    | some ((_, some _), g', clock') => runCalls n g' clock'
    | some ((id, none), g', clock') => id :: runCalls n g' clock'

/-! ### Field extraction (the decoding operations named by the spec) -/

/-- The 41-bit timestamp field: the ID right-shifted by 22 bits
(for the nonnegative IDs of normal operation, `>> 22` is division). -/
def tsField (id : Int) : Int := id / 2 ^ unixMilliShift

/-- Bits 21..17 of the ID: the datacenter / IDC identity field. -/
def idcField (id : Int) : Int := id / 2 ^ idcIDShift % 2 ^ idcIDBits

/-- Bits 16..12 of the ID: the machine identity field. -/
def machineField (id : Int) : Int := id / 2 ^ machineIDShift % 2 ^ machineIDBits

/-- Bits 11..0 of the ID: the sequence field. -/
def seqField (id : Int) : Int := id % 2 ^ sequenceIDBits

/-- Arithmetic (overflow-free) form of the ID assembly, used to reason about
`assembleID` on in-range inputs. -/
def encode (now idc mach seq : Int) : Int :=
  (now - epoch) * 2 ^ unixMilliShift + idc * 2 ^ idcIDShift
    + mach * 2 ^ machineIDShift + seq

/-- The arithmetic value of the ID the current state would justify: the last
minted `(lastMilli, sequenceID)` pair encoded with the generator's identity. -/
def stateKey (g : IDGenerator) : Int :=
  encode g.lastMilli g.IDCID g.machineID g.sequenceID

/-- Invariant tying a generator state to the pending clock readings: identity
and sequence fields are within their widths, `lastMilli` is the sentinel or an
in-range millisecond, and the pending readings are non-decreasing, in the
41-bit timestamp range, and never behind `lastMilli`. -/
def Inv (g : IDGenerator) (clock : List Int) : Prop :=
  0 ≤ g.IDCID ∧ g.IDCID ≤ maxIDCID ∧
  0 ≤ g.machineID ∧ g.machineID ≤ maxMachineID ∧
  0 ≤ g.sequenceID ∧ g.sequenceID ≤ maxSequenceID ∧
  (g.lastMilli = -1 ∨ (epoch ≤ g.lastMilli ∧ g.lastMilli < epoch + 2 ^ 41)) ∧
  clock.Pairwise (· ≤ ·) ∧
  (∀ r ∈ clock, epoch ≤ r ∧ r < epoch + 2 ^ 41) ∧
  (∀ r ∈ clock, g.lastMilli ≤ r)

/-! ### Numeric values of the constants -/

theorem maxSequenceID_eq : maxSequenceID = 4095 := by decide

theorem maxMachineID_eq : maxMachineID = 31 := by decide

theorem maxIDCID_eq : maxIDCID = 31 := by decide

theorem unixMilliShift_eq : unixMilliShift = 22 := rfl

theorem idcIDShift_eq : idcIDShift = 17 := rfl

theorem machineIDShift_eq : machineIDShift = 12 := rfl

theorem sequenceIDBits_eq : sequenceIDBits = 12 := rfl

theorem machineIDBits_eq : machineIDBits = 5 := rfl

theorem idcIDBits_eq : idcIDBits = 5 := rfl

/-! ### Two's-complement arithmetic lemmas -/

theorem toBits64_of_lt {x : Int} (h0 : 0 ≤ x) (h1 : x < 2 ^ 64) :
    toBits64 x = x.toNat := by
  unfold toBits64
  rw [Int.emod_eq_of_lt h0 h1]

theorem ofBits64_of_lt {n : Nat} (h : n < 2 ^ 63) : ofBits64 n = (n : Int) := by
  unfold ofBits64
  rw [if_pos h]

theorem wrap64_eq {x : Int} (h0 : -(2 ^ 63) ≤ x) (h1 : x < 2 ^ 63) : wrap64 x = x := by
  unfold wrap64 ofBits64 toBits64
  split
  all_goals omega

theorem shl64_eq {x : Int} {n : Nat} (h0 : 0 ≤ x) (h1 : x * 2 ^ n < 2 ^ 63) :
    shl64 x n = x * 2 ^ n := by
  have hx : x < 2 ^ 63 := by
    have h2 : (1 : Int) ≤ 2 ^ n := one_le_pow₀ (by norm_num)
    nlinarith
  unfold shl64
  rw [toBits64_of_lt h0 (by norm_num at hx ⊢; omega), Nat.shiftLeft_eq]
  have hcast : ((x.toNat * 2 ^ n : Nat) : Int) = x * 2 ^ n := by
    push_cast [Int.toNat_of_nonneg h0]
    ring
  have hlt : x.toNat * 2 ^ n < 2 ^ 63 := by
    have := h1
    rw [← hcast] at this
    exact_mod_cast this
  rw [Nat.mod_eq_of_lt (lt_trans hlt (by norm_num)), ofBits64_of_lt hlt, hcast]

theorem or64_eq_add {x y : Int} (n : Nat) (hn : (2 ^ n : Int) ≤ 2 ^ 63)
    (hx0 : 0 ≤ x) (hx1 : x < 2 ^ 63) (hdvd : (2 ^ n : Int) ∣ x)
    (hy0 : 0 ≤ y) (hy1 : y < 2 ^ n) : or64 x y = x + y := by
  have hxbound : x + 2 ^ n ≤ 2 ^ 63 := by
    rcases eq_or_lt_of_le hx0 with h | h
    · have h2 : (0 : Int) < 2 ^ 63 - x := by omega
      have h3 : (2 ^ n : Int) ∣ (2 ^ 63 - x) := by
        refine dvd_sub ?_ hdvd
        exact pow_dvd_pow 2 (by
          by_contra hcon
          push_neg at hcon
          have : (2 ^ 63 : Int) < 2 ^ n := by
            exact_mod_cast pow_lt_pow_right₀ (by norm_num) hcon
          omega)
      have := Int.le_of_dvd h2 h3
      omega
    · have h2 : (0 : Int) < 2 ^ 63 - x := by omega
      have h3 : (2 ^ n : Int) ∣ (2 ^ 63 - x) := by
        refine dvd_sub ?_ hdvd
        exact pow_dvd_pow 2 (by
          by_contra hcon
          push_neg at hcon
          have : (2 ^ 63 : Int) < 2 ^ n := by
            exact_mod_cast pow_lt_pow_right₀ (by norm_num) hcon
          omega)
      have := Int.le_of_dvd h2 h3
      omega
  have hsum : x + y < 2 ^ 63 := by omega
  obtain ⟨a, ha⟩ := hdvd
  have ha0 : 0 ≤ a := by
    by_contra hcon
    push_neg at hcon
    have h2 : (0 : Int) < 2 ^ n := by positivity
    nlinarith
  unfold or64
  rw [toBits64_of_lt hx0 (by omega), toBits64_of_lt hy0 (by omega)]
  have hxN : x.toNat = 2 ^ n * a.toNat := by
    have h2 : (x.toNat : Int) = (2 : Int) ^ n * (a.toNat : Int) := by
      rw [Int.toNat_of_nonneg hx0, Int.toNat_of_nonneg ha0, ha]
    exact_mod_cast h2
  have hyN : y.toNat < 2 ^ n := by
    have h2 : (y.toNat : Int) < (2 : Int) ^ n := by
      rw [Int.toNat_of_nonneg hy0]
      exact hy1
    exact_mod_cast h2
  rw [hxN, ← Nat.mul_add_lt_is_or hyN a.toNat]
  have hc : ((2 ^ n * a.toNat + y.toNat : Nat) : Int) = x + y := by
    push_cast [Int.toNat_of_nonneg ha0, Int.toNat_of_nonneg hy0]
    rw [ha]
  have hlt : 2 ^ n * a.toNat + y.toNat < 2 ^ 63 := by
    have h4 : ((2 ^ n * a.toNat + y.toNat : Nat) : Int) < 2 ^ 63 := by
      rw [hc]
      exact hsum
    exact_mod_cast h4
  rw [ofBits64_of_lt hlt]
  exact hc

/-! ### The assembled ID of an in-range mint equals its arithmetic value -/

theorem assembleID_eq_encode {now idc mach seq : Int}
    (hnow0 : epoch ≤ now) (hnow1 : now < epoch + 2 ^ 41)
    (hidc0 : 0 ≤ idc) (hidc1 : idc ≤ maxIDCID)
    (hmach0 : 0 ≤ mach) (hmach1 : mach ≤ maxMachineID)
    (hseq0 : 0 ≤ seq) (hseq1 : seq ≤ maxSequenceID) :
    assembleID now idc mach seq = encode now idc mach seq := by
  rw [maxIDCID_eq] at hidc1
  rw [maxMachineID_eq] at hmach1
  rw [maxSequenceID_eq] at hseq1
  have ht0 : (0 : Int) ≤ now - epoch := by omega
  have ht1 : now - epoch < 2 ^ 41 := by omega
  have e1 : or64 ((now - epoch) * 2 ^ 22) (idc * 2 ^ 17)
      = (now - epoch) * 2 ^ 22 + idc * 2 ^ 17 :=
    or64_eq_add 22 (by norm_num) (by omega) (by omega)
      ⟨now - epoch, by ring⟩ (by omega) (by omega)
  have e2 : or64 ((now - epoch) * 2 ^ 22 + idc * 2 ^ 17) (mach * 2 ^ 12)
      = (now - epoch) * 2 ^ 22 + idc * 2 ^ 17 + mach * 2 ^ 12 :=
    or64_eq_add 17 (by norm_num) (by omega) (by omega)
      ⟨(now - epoch) * 2 ^ 5 + idc, by ring⟩ (by omega) (by omega)
  have e3 : or64 ((now - epoch) * 2 ^ 22 + idc * 2 ^ 17 + mach * 2 ^ 12) seq
      = (now - epoch) * 2 ^ 22 + idc * 2 ^ 17 + mach * 2 ^ 12 + seq :=
    or64_eq_add 12 (by norm_num) (by omega) (by omega)
      ⟨(now - epoch) * 2 ^ 10 + idc * 2 ^ 5 + mach, by ring⟩ hseq0 (by omega)
  unfold assembleID
  rw [show sub64 now epoch = now - epoch from wrap64_eq (by omega) (by omega)]
  rw [unixMilliShift_eq, idcIDShift_eq, machineIDShift_eq]
  rw [shl64_eq ht0 (by omega)]
  rw [shl64_eq hidc0 (by omega)]
  rw [shl64_eq hmach0 (by omega)]
  rw [e1, e2, e3]
  unfold encode
  rw [unixMilliShift_eq, idcIDShift_eq, machineIDShift_eq]

/-! ### Decoding the arithmetic form -/

theorem tsField_encode {now idc mach seq : Int}
    (hidc0 : 0 ≤ idc) (hidc1 : idc ≤ maxIDCID)
    (hmach0 : 0 ≤ mach) (hmach1 : mach ≤ maxMachineID)
    (hseq0 : 0 ≤ seq) (hseq1 : seq ≤ maxSequenceID) :
    tsField (encode now idc mach seq) = now - epoch := by
  rw [maxIDCID_eq] at hidc1
  rw [maxMachineID_eq] at hmach1
  rw [maxSequenceID_eq] at hseq1
  unfold tsField encode
  rw [unixMilliShift_eq, idcIDShift_eq, machineIDShift_eq]
  omega

theorem idcField_encode {now idc mach seq : Int}
    (hidc0 : 0 ≤ idc) (hidc1 : idc ≤ maxIDCID)
    (hmach0 : 0 ≤ mach) (hmach1 : mach ≤ maxMachineID)
    (hseq0 : 0 ≤ seq) (hseq1 : seq ≤ maxSequenceID) :
    idcField (encode now idc mach seq) = idc := by
  rw [maxIDCID_eq] at hidc1
  rw [maxMachineID_eq] at hmach1
  rw [maxSequenceID_eq] at hseq1
  unfold idcField encode
  rw [unixMilliShift_eq, idcIDShift_eq, machineIDShift_eq, idcIDBits_eq]
  omega

theorem machineField_encode {now idc mach seq : Int}
    (hidc0 : 0 ≤ idc) (hidc1 : idc ≤ maxIDCID)
    (hmach0 : 0 ≤ mach) (hmach1 : mach ≤ maxMachineID)
    (hseq0 : 0 ≤ seq) (hseq1 : seq ≤ maxSequenceID) :
    machineField (encode now idc mach seq) = mach := by
  rw [maxIDCID_eq] at hidc1
  rw [maxMachineID_eq] at hmach1
  rw [maxSequenceID_eq] at hseq1
  unfold machineField encode
  rw [unixMilliShift_eq, idcIDShift_eq, machineIDShift_eq, machineIDBits_eq]
  omega

theorem seqField_encode {now idc mach seq : Int}
    (hseq0 : 0 ≤ seq) (hseq1 : seq ≤ maxSequenceID) :
    seqField (encode now idc mach seq) = seq := by
  rw [maxSequenceID_eq] at hseq1
  unfold seqField encode
  rw [unixMilliShift_eq, idcIDShift_eq, machineIDShift_eq, sequenceIDBits_eq]
  omega

/-- `encode` is strictly monotone in the lexicographic order on
`(timestamp, sequence)` for fixed identity, given the sequence bounds. -/
theorem encode_lt_encode {l l' idc mach s s' : Int}
    (hs0 : 0 ≤ s) (hs1 : s ≤ maxSequenceID) (hs0' : 0 ≤ s')
    (hlex : l < l' ∨ (l = l' ∧ s < s')) :
    encode l idc mach s < encode l' idc mach s' := by
  rw [maxSequenceID_eq] at hs1
  unfold encode
  rw [unixMilliShift_eq, idcIDShift_eq, machineIDShift_eq]
  rcases hlex with h | ⟨h1, h2⟩
  · have h3 : l + 1 ≤ l' := by omega
    nlinarith
  · subst h1
    omega

/-! ### Behaviour of the clock-wait loop -/

theorem tilNextMilli_sound (L : Int) (rest : List Int) :
    ∀ (now now2 : Int) (rest2 : List Int),
      tilNextMilli L now rest = some (now2, rest2) →
      L < now2 ∧ ((now2 = now ∧ rest2 = rest) ∨ (now2 :: rest2) <:+ rest) := by
  induction rest with
  | nil =>
    intro now now2 rest2 h
    simp only [tilNextMilli] at h
    split_ifs at h with hle
    obtain ⟨h1, h2⟩ := Prod.mk.injEq .. ▸ Option.some.injEq .. ▸ h
    exact ⟨by omega, Or.inl ⟨h1.symm, h2.symm⟩⟩
  | cons r rs ih =>
    intro now now2 rest2 h
    simp only [tilNextMilli] at h
    split_ifs at h with hle
    · obtain ⟨hlt, hcase⟩ := ih r now2 rest2 h
      refine ⟨hlt, Or.inr ?_⟩
      rcases hcase with ⟨rfl, rfl⟩ | hsuf
      · exact List.suffix_refl _
      · exact hsuf.trans (List.suffix_cons r rs)
    · obtain ⟨h1, h2⟩ := Prod.mk.injEq .. ▸ Option.some.injEq .. ▸ h
      exact ⟨by omega, Or.inl ⟨h1.symm, h2.symm⟩⟩

theorem tilNextMilli_terminates (L : Int) (rest : List Int) :
    ∀ now : Int, ((∃ r ∈ rest, L < r) ∨ L < now) →
      ∃ now2 rest2, tilNextMilli L now rest = some (now2, rest2) := by
  induction rest with
  | nil =>
    intro now h
    rcases h with ⟨r, hr, _⟩ | h
    · exact absurd hr (List.not_mem_nil r)
    · exact ⟨now, [], by simp only [tilNextMilli]; rw [if_neg (by omega)]⟩
  | cons r rs ih =>
    intro now h
    by_cases hle : now ≤ L
    · have h2 : (∃ x ∈ rs, L < x) ∨ L < r := by
        rcases h with ⟨x, hx, hxL⟩ | h
        · rcases List.mem_cons.mp hx with rfl | hx'
          · exact Or.inr hxL
          · exact Or.inl ⟨x, hx', hxL⟩
        · omega
      obtain ⟨now2, rest2, hres⟩ := ih r h2
      exact ⟨now2, rest2, by simp only [tilNextMilli]; rw [if_pos hle]; exact hres⟩
    · exact ⟨now, r :: rs, by simp only [tilNextMilli]; rw [if_neg hle]⟩

/-! ### Behaviour of `Generate` -/

theorem add64_small {s : Int} (h0 : 0 ≤ s) (h1 : s ≤ maxSequenceID) :
    add64 s 1 = s + 1 := by
  rw [maxSequenceID_eq] at h1
  unfold add64
  exact wrap64_eq (by omega) (by omega)

/-- Postcondition of every successful `Generate` call: the identity fields are
preserved, the returned ID is the assembly of the post-state's mint data, the
minted millisecond is one of the pending clock readings and not behind the old
`lastMilli`, and the minted sequence is either `0` (with a strictly newer
millisecond, or from the `-1` sentinel) or the incremented old sequence (with
an unchanged millisecond). -/
theorem generate_success {g : IDGenerator} {clock : List Int} {id : Int}
    {g' : IDGenerator} {clock' : List Int}
    (h : Generate g clock = some ((id, none), g', clock')) :
    g'.IDCID = g.IDCID ∧ g'.machineID = g.machineID ∧
    id = assembleID g'.lastMilli g.IDCID g.machineID g'.sequenceID ∧
    g'.lastMilli ∈ clock ∧ g.lastMilli ≤ g'.lastMilli ∧
    ((g'.sequenceID = 0 ∧ g.lastMilli < g'.lastMilli) ∨
      (g'.sequenceID = add64 g.sequenceID 1 ∧ add64 g.sequenceID 1 ≤ maxSequenceID ∧
        g'.lastMilli = g.lastMilli)) := by
  cases clock with
  | nil => exact absurd h (by simp [Generate])
  | cons now rest =>
    simp only [Generate] at h
    split_ifs at h with h1 h2 h3 h4
    · simp at h
    · cases htn : tilNextMilli g.lastMilli now rest with
      | none => rw [htn] at h; exact absurd h (by simp)
      | some p =>
        obtain ⟨now2, rest2⟩ := p
        rw [htn] at h
        obtain ⟨hlt, hcase⟩ := tilNextMilli_sound g.lastMilli rest now now2 rest2 htn
        simp only [Option.some.injEq, Prod.mk.injEq] at h
        obtain ⟨⟨hid, -⟩, hg', -⟩ := h
        subst hg'
        have hmem : now2 ∈ now :: rest := by
          rcases hcase with ⟨rfl, -⟩ | hsuf
          · omega
          · exact List.mem_cons_of_mem now (hsuf.subset (List.mem_cons_self now2 rest2))
        exact ⟨rfl, rfl, hid.symm, by simpa using hmem, by simp; omega,
          Or.inl ⟨rfl, by simpa using hlt⟩⟩
    · simp only [Option.some.injEq, Prod.mk.injEq] at h
      obtain ⟨⟨hid, -⟩, hg', -⟩ := h
      subst hg'
      exact ⟨rfl, rfl, hid.symm, by simp [h2], by simp [h2],
        Or.inr ⟨rfl, by omega, by simpa using h2⟩⟩
    · simp only [Option.some.injEq, Prod.mk.injEq] at h
      obtain ⟨⟨hid, -⟩, hg', -⟩ := h
      subst hg'
      exact ⟨rfl, rfl, hid.symm, by simp, by simp; omega,
        Or.inl ⟨rfl, by simpa using h4⟩⟩
    · omega

/-- One `Generate` call from an invariant state either blocks (clock-reading
list exhausted inside the wait loop) or succeeds, preserves the invariant,
returns exactly the arithmetic key of its post-state, and strictly increases
the key whenever an ID had been minted before. -/
theorem generate_step {g : IDGenerator} {now : Int} {rest : List Int}
    (hInv : Inv g (now :: rest)) :
    Generate g (now :: rest) = none ∨
    ∃ g' clock', Generate g (now :: rest) = some ((stateKey g', none), g', clock') ∧
      Inv g' clock' ∧ epoch ≤ g'.lastMilli ∧
      (epoch ≤ g.lastMilli → stateKey g < stateKey g') := by
  obtain ⟨hidc0, hidc1, hmach0, hmach1, hseq0, hseq1, hlm, hpw, hrange, hbehind⟩ := hInv
  have hnow : g.lastMilli ≤ now := hbehind now (List.mem_cons_self now rest)
  have hnowR : epoch ≤ now ∧ now < epoch + 2 ^ 41 :=
    hrange now (List.mem_cons_self now rest)
  have hpw' : rest.Pairwise (· ≤ ·) := (List.pairwise_cons.mp hpw).2
  have hrange' : ∀ r ∈ rest, epoch ≤ r ∧ r < epoch + 2 ^ 41 :=
    fun r hr => hrange r (List.mem_cons_of_mem now hr)
  cases hgen : Generate g (now :: rest) with
  | none => exact Or.inl rfl
  | some out =>
    obtain ⟨⟨id, err⟩, g', clock'⟩ := out
    have herr : err = none := by
      simp only [Generate] at hgen
      split_ifs at hgen with h1 h2 h3 h4
      · omega
      · cases htn : tilNextMilli g.lastMilli now rest with
        | none => rw [htn] at hgen; exact absurd hgen (by simp)
        | some p =>
          obtain ⟨a, b⟩ := p
          rw [htn] at hgen
          simp only [Option.some.injEq, Prod.mk.injEq] at hgen
          exact hgen.1.2.symm
      all_goals simp only [Option.some.injEq, Prod.mk.injEq] at hgen
      · exact hgen.1.2.symm
      · exact hgen.1.2.symm
      · exact hgen.1.2.symm
    subst herr
    obtain ⟨hIdc, hMach, hid, hmem, hle, hcase⟩ := generate_success hgen
    have hlm' : epoch ≤ g'.lastMilli ∧ g'.lastMilli < epoch + 2 ^ 41 := hrange _ hmem
    have hseq' : 0 ≤ g'.sequenceID ∧ g'.sequenceID ≤ maxSequenceID := by
      rcases hcase with ⟨h0, -⟩ | ⟨h0, hb, -⟩
      · rw [h0]
        rw [maxSequenceID_eq]
        omega
      · rw [add64_small hseq0 hseq1] at h0 hb
        rw [h0]
        omega
    have hclock' : clock'.Pairwise (· ≤ ·) ∧
        (∀ r ∈ clock', epoch ≤ r ∧ r < epoch + 2 ^ 41) ∧
        (∀ r ∈ clock', g'.lastMilli ≤ r) := by
      simp only [Generate] at hgen
      split_ifs at hgen with h1 h2 h3 h4
      · omega
      · cases htn : tilNextMilli g.lastMilli now rest with
        | none => rw [htn] at hgen; exact absurd hgen (by simp)
        | some p =>
          obtain ⟨now2, rest2⟩ := p
          rw [htn] at hgen
          obtain ⟨hlt2, hcase2⟩ := tilNextMilli_sound g.lastMilli rest now now2 rest2 htn
          simp only [Option.some.injEq, Prod.mk.injEq] at hgen
          obtain ⟨-, hg', hck⟩ := hgen
          have hsuf : (now2 :: rest2) <:+ rest := by
            rcases hcase2 with ⟨rfl, -⟩ | hsuf
            · omega
            · exact hsuf
          have hpw2 : (now2 :: rest2).Pairwise (· ≤ ·) := hpw'.sublist hsuf.sublist
          subst hck
          refine ⟨(List.pairwise_cons.mp hpw2).2, ?_, ?_⟩
          · intro r hr
            exact hrange' r (hsuf.subset (List.mem_cons_of_mem now2 hr))
          · intro r hr
            rw [← hg']
            exact (List.pairwise_cons.mp hpw2).1 r hr
      all_goals simp only [Option.some.injEq, Prod.mk.injEq] at hgen
      · obtain ⟨-, hg', hck⟩ := hgen
        subst hck
        refine ⟨hpw', hrange', ?_⟩
        intro r hr
        rw [← hg']
        simp only []
        have := hbehind r (List.mem_cons_of_mem now hr)
        omega
      · obtain ⟨-, hg', hck⟩ := hgen
        subst hck
        refine ⟨hpw', hrange', ?_⟩
        intro r hr
        rw [← hg']
        simp only []
        have h5 : now ≤ r := by
          have := (List.pairwise_cons.mp hpw).1 r hr
          omega
        omega
      · omega
    refine Or.inr ⟨g', clock', ?_, ?_, hlm'.1, ?_⟩
    · have he : id = stateKey g' := by
        rw [hid, ← hIdc, ← hMach]
        unfold stateKey
        exact assembleID_eq_encode hlm'.1 hlm'.2 (by rw [hIdc]; exact hidc0)
          (by rw [hIdc]; exact hidc1) (by rw [hMach]; exact hmach0)
          (by rw [hMach]; exact hmach1) hseq'.1 hseq'.2
      rw [he]
    · exact ⟨by rw [hIdc]; exact hidc0, by rw [hIdc]; exact hidc1,
        by rw [hMach]; exact hmach0, by rw [hMach]; exact hmach1,
        hseq'.1, hseq'.2, Or.inr hlm', hclock'.1, hclock'.2.1, hclock'.2.2⟩
    · intro hminted
      unfold stateKey
      rw [hIdc, hMach]
      rcases hcase with ⟨h0, hlt⟩ | ⟨h0, -, heq⟩
      · rw [h0]
        exact encode_lt_encode hseq0 hseq1 le_rfl (Or.inl hlt)
      · rw [h0, heq, add64_small hseq0 hseq1]
        exact encode_lt_encode hseq0 hseq1 (by omega) (Or.inr ⟨rfl, by omega⟩)

/-- Successive successful IDs from an invariant state form a strictly
increasing chain, and every one of them exceeds the key of the start state
once an ID has been minted. -/
theorem runCalls_spec (n : Nat) :
    ∀ (g : IDGenerator) (clock : List Int), Inv g clock →
      List.Chain' (· < ·) (runCalls n g clock) ∧
      (∀ id ∈ runCalls n g clock, epoch ≤ g.lastMilli → stateKey g < id) := by
  induction n with
  | zero =>
    intro g clock _
    simp [runCalls]
  | succ n ih =>
    intro g clock hInv
    cases clock with
    | nil =>
      simp [runCalls, Generate]
    | cons now rest =>
      rcases generate_step hInv with hnone | ⟨g', clock', hgen, hInv', hge, hkey⟩
      · rw [show runCalls (n + 1) g (now :: rest) = [] by simp [runCalls, hnone]]
        simp
      · have hrc : runCalls (n + 1) g (now :: rest)
            = stateKey g' :: runCalls n g' clock' := by
          simp [runCalls, hgen]
        obtain ⟨hch, hall⟩ := ih g' clock' hInv'
        have hall' : ∀ id ∈ runCalls n g' clock', stateKey g' < id :=
          fun id hid => hall id hid hge
        constructor
        · rw [hrc]
          cases hlist : runCalls n g' clock' with
          | nil => simp
          | cons b l =>
            rw [List.chain'_cons]
            exact ⟨hall' b (by rw [hlist]; exact List.mem_cons_self b l),
              hlist ▸ hch⟩
        · intro id hid hminted
          rw [hrc] at hid
          rcases List.mem_cons.mp hid with rfl | hid'
          · exact hkey hminted
          · exact lt_trans (hkey hminted) (hall' id hid')

theorem epoch_val : epoch = 1669046400000 := rfl

/-! ### The claims -/

/-- Claim C1 (counterexample): clock monotonicity alone does not make the
IDs strictly increasing. With the non-decreasing readings `epoch` and
`epoch + 2 ^ 41`, the second mint overflows the 41-bit timestamp field of the
int64 (Go `<<` wraps silently) and the two successful IDs decrease. -/
theorem claim1_counterexample :
    NewIDGenerator 0 0 = Except.ok ⟨-1, 0, 0, 0⟩ ∧
    List.Pairwise (· ≤ ·) [epoch, epoch + 2 ^ 41] ∧
    runCalls 2 ⟨-1, 0, 0, 0⟩ [epoch, epoch + 2 ^ 41]
      = [0, -9223372036854775808] ∧
    ¬ (runCalls 2 ⟨-1, 0, 0, 0⟩ [epoch, epoch + 2 ^ 41]).Chain' (· < ·) := by
  refine ⟨by rfl, by decide, by rfl, ?_⟩
  rw [show runCalls 2 ⟨-1, 0, 0, 0⟩ [epoch, epoch + 2 ^ 41]
      = [0, -9223372036854775808] from rfl]
  simp [List.chain'_cons]

/-- Claim C1 (amended): for a generator built by `NewIDGenerator`, if the
clock readings are non-decreasing and each lies in the 41-bit timestamp range
`[epoch, epoch + 2 ^ 41)`, the int64 IDs returned by successive successful
`Generate` calls are strictly increasing. -/
theorem claim1_monotonic {idcID machineID : Int} {g : IDGenerator}
    (hg : NewIDGenerator idcID machineID = Except.ok g)
    (n : Nat) (clock : List Int)
    (hsorted : clock.Pairwise (· ≤ ·))
    (hrange : ∀ r ∈ clock, epoch ≤ r ∧ r < epoch + 2 ^ 41) :
    (runCalls n g clock).Chain' (· < ·) := by
  unfold NewIDGenerator at hg
  by_cases h1 : idcID > maxIDCID ∨ idcID < 0
  · rw [if_pos h1] at hg
    exact absurd hg (by simp)
  by_cases h2 : machineID > maxMachineID ∨ machineID < 0
  · rw [if_neg h1, if_pos h2] at hg
    exact absurd hg (by simp)
  rw [if_neg h1, if_neg h2] at hg
  push_neg at h1 h2
  simp only [Except.ok.injEq] at hg
  subst hg
  refine (runCalls_spec n _ clock ⟨by simpa using h1.2, by simpa using h1.1,
    by simpa using h2.2, by simpa using h2.1, by simp, ?_, Or.inl rfl,
    hsorted, hrange, ?_⟩).1
  · simp only [maxSequenceID_eq]
    norm_num
  · intro r hr
    have h3 := (hrange r hr).1
    rw [epoch_val] at h3
    simp only []
    omega

/-- Witness for the amended claim C1: three calls on a concrete
non-decreasing in-range clock yield strictly increasing IDs. -/
theorem claim1_monotonic_witness :
    (runCalls 3 ⟨-1, 0, 2, 1⟩ [epoch, epoch, epoch + 1]).Chain' (· < ·) :=
  @claim1_monotonic 1 2 ⟨-1, 0, 2, 1⟩ (by rfl) 3
    [epoch, epoch, epoch + 1] (by decide) (by decide)

/-- Claim C2: any ID of a successful `Generate` call from a state whose
identity and sequence fields are within their widths, with all pending clock
readings inside the 41-bit timestamp range, decodes back to its mint data:
shifting right by 22 bits and adding `epoch` gives the minting millisecond
(the new `lastMilli`), bits 21..17 give the IDC identity, bits 16..12 the
machine identity, and bits 11..0 the minted sequence value. -/
theorem claim2_roundtrip {g : IDGenerator} {clock : List Int} {id : Int}
    {g' : IDGenerator} {clock' : List Int}
    (hidc0 : 0 ≤ g.IDCID) (hidc1 : g.IDCID ≤ maxIDCID)
    (hmach0 : 0 ≤ g.machineID) (hmach1 : g.machineID ≤ maxMachineID)
    (hseq0 : 0 ≤ g.sequenceID) (hseq1 : g.sequenceID ≤ maxSequenceID)
    (hrange : ∀ r ∈ clock, epoch ≤ r ∧ r < epoch + 2 ^ 41)
    (h : Generate g clock = some ((id, none), g', clock')) :
    tsField id + epoch = g'.lastMilli ∧ idcField id = g.IDCID ∧
    machineField id = g.machineID ∧ seqField id = g'.sequenceID := by
  obtain ⟨hIdc, hMach, hid, hmem, hle, hcase⟩ := generate_success h
  have hr := hrange _ hmem
  have hseq' : 0 ≤ g'.sequenceID ∧ g'.sequenceID ≤ maxSequenceID := by
    rcases hcase with ⟨h0, -⟩ | ⟨h0, hb, -⟩
    · rw [h0, maxSequenceID_eq]
      norm_num
    · rw [add64_small hseq0 hseq1] at h0 hb
      rw [h0]
      omega
  rw [hid, assembleID_eq_encode hr.1 hr.2 hidc0 hidc1 hmach0 hmach1 hseq'.1 hseq'.2]
  refine ⟨?_, idcField_encode hidc0 hidc1 hmach0 hmach1 hseq'.1 hseq'.2,
    machineField_encode hidc0 hidc1 hmach0 hmach1 hseq'.1 hseq'.2,
    seqField_encode hseq'.1 hseq'.2⟩
  rw [tsField_encode hidc0 hidc1 hmach0 hmach1 hseq'.1 hseq'.2]
  ring

/-- Witness for claim C2 at the spec's worked example: datacenter 1,
machine 2, first call at `epoch + 5000`; the ID decodes to timestamp field
5000, IDC 1, machine 2, sequence 0. -/
theorem claim2_roundtrip_witness :
    tsField 20971659264 + epoch = epoch + 5000 ∧ idcField 20971659264 = 1 ∧
    machineField 20971659264 = 2 ∧ seqField 20971659264 = 0 :=
  @claim2_roundtrip ⟨-1, 0, 2, 1⟩ [epoch + 5000] 20971659264
    ⟨epoch + 5000, 0, 2, 1⟩ []
    (by decide) (by decide) (by decide) (by decide) (by decide) (by decide)
    (by decide) (by rfl)

/-- Claim C3 (counterexample): the epoch constant is not 1669075200000, the
millisecond timestamp of 2022-11-22T00:00:00Z. -/
theorem claim3_counterexample : epoch ≠ 1669075200000 := by decide

/-- Claim C3 (amended): the epoch constant equals 1669046400000, which is
2022-11-22T00:00:00 in UTC+8 (i.e. 2022-11-21T16:00:00Z), not the UTC
midnight timestamp. -/
theorem claim3_epoch_value : epoch = 1669046400000 := rfl

/-- Claim C4: `Generate` fails exactly when the clock reading at the start of
the call is strictly behind `lastMilli`; the failure is `ErrClockBack`, the
state and the remaining readings are untouched by it, and any completed call
whose reading is not behind `lastMilli` returns no error. -/
theorem claim4_clock_back (g : IDGenerator) (now : Int) (rest : List Int) :
    (now < g.lastMilli →
      Generate g (now :: rest) = some ((-1, some GoError.ErrClockBack), g, rest)) ∧
    (g.lastMilli ≤ now → ∀ id e g' clock',
      Generate g (now :: rest) = some ((id, e), g', clock') → e = none) := by
  constructor
  · intro h
    simp only [Generate]
    rw [if_pos h]
  · intro hge id e g' clock' h
    simp only [Generate] at h
    split_ifs at h with h1 h2 h3 h4
    · omega
    · cases htn : tilNextMilli g.lastMilli now rest with
      | none => rw [htn] at h; exact absurd h (by simp)
      | some p =>
        obtain ⟨a, b⟩ := p
        rw [htn] at h
        simp only [Option.some.injEq, Prod.mk.injEq] at h
        exact h.1.2.symm
    all_goals simp only [Option.some.injEq, Prod.mk.injEq] at h
    · exact h.1.2.symm
    · exact h.1.2.symm
    · exact h.1.2.symm

/-- Witness for claim C4: a concrete call with a regressed reading fails with
`ErrClockBack`, `-1`, and unchanged state. -/
theorem claim4_clock_back_witness :
    Generate ⟨epoch + 10, 0, 2, 1⟩ [epoch + 5] =
      some ((-1, some GoError.ErrClockBack), ⟨epoch + 10, 0, 2, 1⟩, []) :=
  (claim4_clock_back ⟨epoch + 10, 0, 2, 1⟩ (epoch + 5) []).1 (by decide)

/-- Claim C5: a call observing `now = lastMilli` with the sequence already at
4095 does not fail: it consumes clock readings until one strictly exceeds
`lastMilli` (terminating whenever such a reading is pending), then succeeds
with `lastMilli` set to that new millisecond, sequence reset to 0, and an ID
whose timestamp field is the new millisecond and whose sequence field is 0. -/
theorem claim5_exhaustion {g : IDGenerator} {now : Int} {rest : List Int}
    (hidc0 : 0 ≤ g.IDCID) (hidc1 : g.IDCID ≤ maxIDCID)
    (hmach0 : 0 ≤ g.machineID) (hmach1 : g.machineID ≤ maxMachineID)
    (hseq : g.sequenceID = maxSequenceID)
    (hnow : now = g.lastMilli)
    (hrange : ∀ r ∈ rest, epoch ≤ r ∧ r < epoch + 2 ^ 41)
    (hadv : ∃ r ∈ rest, g.lastMilli < r) :
    ∃ now2 rest2 id,
      Generate g (now :: rest) = some ((id, none),
        { lastMilli := now2, sequenceID := 0, machineID := g.machineID,
          IDCID := g.IDCID }, rest2) ∧
      g.lastMilli < now2 ∧ tsField id + epoch = now2 ∧ seqField id = 0 := by
  obtain ⟨now2, rest2, htn⟩ := tilNextMilli_terminates g.lastMilli rest now (Or.inl hadv)
  obtain ⟨hlt, hcase⟩ := tilNextMilli_sound g.lastMilli rest now now2 rest2 htn
  have hmem : now2 ∈ rest := by
    rcases hcase with ⟨rfl, -⟩ | hsuf
    · omega
    · exact hsuf.subset (List.mem_cons_self now2 rest2)
  have hr := hrange now2 hmem
  have hmax0 : (0 : Int) ≤ maxSequenceID := by
    rw [maxSequenceID_eq]
    norm_num
  refine ⟨now2, rest2, assembleID now2 g.IDCID g.machineID 0, ?_, hlt, ?_, ?_⟩
  · simp only [Generate]
    have hcond : add64 g.sequenceID 1 > maxSequenceID := by
      rw [hseq, add64_small hmax0 le_rfl]
      omega
    rw [if_neg (by omega), if_pos hnow, if_pos hcond, htn]
  · rw [assembleID_eq_encode hr.1 hr.2 hidc0 hidc1 hmach0 hmach1 le_rfl hmax0,
      tsField_encode hidc0 hidc1 hmach0 hmach1 le_rfl hmax0]
    ring
  · rw [assembleID_eq_encode hr.1 hr.2 hidc0 hidc1 hmach0 hmach1 le_rfl hmax0,
      seqField_encode le_rfl hmax0]

/-- Witness for claim C5: with sequence 4095 and two further readings, the
stalled reading is skipped and the call mints at the advanced millisecond. -/
theorem claim5_exhaustion_witness :
    ∃ now2 rest2 id,
      Generate ⟨epoch, 4095, 2, 1⟩ [epoch, epoch, epoch + 1] = some ((id, none),
        { lastMilli := now2, sequenceID := 0, machineID := 2, IDCID := 1 }, rest2) ∧
      (epoch : Int) < now2 ∧ tsField id + epoch = now2 ∧ seqField id = 0 :=
  @claim5_exhaustion ⟨epoch, 4095, 2, 1⟩ epoch [epoch, epoch + 1]
    (by decide) (by decide) (by decide) (by decide)
    (by decide) (by rfl) (by decide) (by decide)

/-- Claim C6: `NewIDGenerator` succeeds exactly when both identities lie in
`[0, 31]`: an out-of-range IDC identity yields `ErrInvaildIDCID`, an
out-of-range machine identity (with a valid IDC identity) yields
`ErrInvaildMachineID`, and success returns `lastMilli = -1`, `sequenceID = 0`
and exactly the given identities. -/
theorem claim6_construction (idcID machineID : Int) :
    ((0 ≤ idcID ∧ idcID ≤ maxIDCID ∧ 0 ≤ machineID ∧ machineID ≤ maxMachineID) →
      NewIDGenerator idcID machineID = Except.ok
        { lastMilli := -1, sequenceID := 0, machineID := machineID, IDCID := idcID }) ∧
    ((idcID < 0 ∨ maxIDCID < idcID) →
      NewIDGenerator idcID machineID = Except.error GoError.ErrInvaildIDCID) ∧
    ((0 ≤ idcID ∧ idcID ≤ maxIDCID) → (machineID < 0 ∨ maxMachineID < machineID) →
      NewIDGenerator idcID machineID = Except.error GoError.ErrInvaildMachineID) := by
  refine ⟨?_, ?_, ?_⟩
  · intro h
    unfold NewIDGenerator
    rw [if_neg (by omega), if_neg (by omega)]
  · intro h
    unfold NewIDGenerator
    rw [if_pos (by omega)]
  · intro h1 h2
    unfold NewIDGenerator
    rw [if_neg (by omega), if_pos (by omega)]

/-- Witness for claim C6: constructing with IDC 1 and machine 2 succeeds with
the documented initial state. -/
theorem claim6_construction_witness :
    NewIDGenerator 1 2 = Except.ok
      { lastMilli := -1, sequenceID := 0, machineID := 2, IDCID := 1 } :=
  (claim6_construction 1 2).1 (by decide)

/-- Claim C7: if a successful call is followed by a call that observes the
same clock millisecond and the first call's sequence value is strictly below
4095, the second call succeeds with a sequence field one higher than the
first's and an identical timestamp field. -/
theorem claim7_same_milli {g : IDGenerator} {clock : List Int} {id1 : Int}
    {g1 : IDGenerator} {rest : List Int}
    (hidc0 : 0 ≤ g.IDCID) (hidc1 : g.IDCID ≤ maxIDCID)
    (hmach0 : 0 ≤ g.machineID) (hmach1 : g.machineID ≤ maxMachineID)
    (hseq0 : 0 ≤ g.sequenceID) (hseq1 : g.sequenceID ≤ maxSequenceID)
    (hrange : ∀ r ∈ clock, epoch ≤ r ∧ r < epoch + 2 ^ 41)
    (h1 : Generate g clock = some ((id1, none), g1, g1.lastMilli :: rest))
    (hlt : g1.sequenceID < maxSequenceID) :
    ∃ id2 g2, Generate g1 (g1.lastMilli :: rest) = some ((id2, none), g2, rest) ∧
      seqField id2 = seqField id1 + 1 ∧ tsField id2 = tsField id1 := by
  obtain ⟨hIdc, hMach, hid, hmem, hle, hcase⟩ := generate_success h1
  have hr := hrange _ hmem
  have hseq1' : 0 ≤ g1.sequenceID := by
    rcases hcase with ⟨h0, -⟩ | ⟨h0, hb, -⟩
    · rw [h0]
    · rw [add64_small hseq0 hseq1] at h0
      omega
  have hcond : ¬ add64 g1.sequenceID 1 > maxSequenceID := by
    rw [add64_small hseq1' (le_of_lt hlt)]
    omega
  refine ⟨assembleID g1.lastMilli g1.IDCID g1.machineID (add64 g1.sequenceID 1),
    { g1 with sequenceID := add64 g1.sequenceID 1, lastMilli := g1.lastMilli }, ?_, ?_, ?_⟩
  · simp only [Generate]
    rw [if_neg (lt_irrefl g1.lastMilli)]
    rw [if_pos trivial, if_neg hcond]
  · rw [add64_small hseq1' (le_of_lt hlt)]
    rw [assembleID_eq_encode hr.1 hr.2 (hIdc ▸ hidc0) (hIdc ▸ hidc1)
      (hMach ▸ hmach0) (hMach ▸ hmach1) (by omega) (by omega)]
    rw [hid, ← hIdc, ← hMach]
    rw [assembleID_eq_encode hr.1 hr.2 (hIdc ▸ hidc0) (hIdc ▸ hidc1)
      (hMach ▸ hmach0) (hMach ▸ hmach1) hseq1' (le_of_lt hlt)]
    rw [seqField_encode (by omega) (by omega), seqField_encode hseq1' (le_of_lt hlt)]
  · rw [add64_small hseq1' (le_of_lt hlt)]
    rw [assembleID_eq_encode hr.1 hr.2 (hIdc ▸ hidc0) (hIdc ▸ hidc1)
      (hMach ▸ hmach0) (hMach ▸ hmach1) (by omega) (by omega)]
    rw [hid, ← hIdc, ← hMach]
    rw [assembleID_eq_encode hr.1 hr.2 (hIdc ▸ hidc0) (hIdc ▸ hidc1)
      (hMach ▸ hmach0) (hMach ▸ hmach1) hseq1' (le_of_lt hlt)]
    rw [tsField_encode (hIdc ▸ hidc0) (hIdc ▸ hidc1) (hMach ▸ hmach0)
      (hMach ▸ hmach1) (by omega) (by omega),
      tsField_encode (hIdc ▸ hidc0) (hIdc ▸ hidc1) (hMach ▸ hmach0)
      (hMach ▸ hmach1) hseq1' (le_of_lt hlt)]

/-- Witness for claim C7: two calls in the same millisecond; the second ID's
sequence field is the first's plus one with the same timestamp field. -/
theorem claim7_same_milli_witness :
    ∃ id2 g2, Generate ⟨epoch, 0, 2, 1⟩ [epoch] = some ((id2, none), g2, []) ∧
      seqField id2 = seqField 139264 + 1 ∧ tsField id2 = tsField 139264 :=
  @claim7_same_milli ⟨-1, 0, 2, 1⟩ [epoch, epoch] 139264
    ⟨epoch, 0, 2, 1⟩ [] (by decide) (by decide)
    (by decide) (by decide) (by decide) (by decide) (by decide) (by rfl) (by decide)

/-- Claim C8: every completed `Generate` call, successful or failing, leaves
the identity fields `machineID` and `IDCID` of the generator unchanged; only
`lastMilli` and `sequenceID` are ever modified. -/
theorem claim8_frame {g : IDGenerator} {clock : List Int}
    {res : Int × Option GoError} {g' : IDGenerator} {clock' : List Int}
    (h : Generate g clock = some (res, g', clock')) :
    g'.machineID = g.machineID ∧ g'.IDCID = g.IDCID := by
  cases clock with
  | nil => exact absurd h (by simp [Generate])
  | cons now rest =>
    simp only [Generate] at h
    split_ifs at h with h1 h2 h3 h4
    · simp only [Option.some.injEq, Prod.mk.injEq] at h
      obtain ⟨-, hg', -⟩ := h
      subst hg'
      exact ⟨rfl, rfl⟩
    · cases htn : tilNextMilli g.lastMilli now rest with
      | none => rw [htn] at h; exact absurd h (by simp)
      | some p =>
        obtain ⟨a, b⟩ := p
        rw [htn] at h
        simp only [Option.some.injEq, Prod.mk.injEq] at h
        obtain ⟨-, hg', -⟩ := h
        subst hg'
        exact ⟨rfl, rfl⟩
    all_goals simp only [Option.some.injEq, Prod.mk.injEq] at h
    all_goals obtain ⟨-, hg', -⟩ := h
    all_goals subst hg'
    all_goals exact ⟨rfl, rfl⟩

/-- Witness for claim C8 at a concrete successful call. -/
theorem claim8_frame_witness :
    ((⟨epoch, 0, 2, 1⟩ : IDGenerator).machineID
        = (⟨-1, 0, 2, 1⟩ : IDGenerator).machineID) ∧
    ((⟨epoch, 0, 2, 1⟩ : IDGenerator).IDCID
        = (⟨-1, 0, 2, 1⟩ : IDGenerator).IDCID) :=
  @claim8_frame ⟨-1, 0, 2, 1⟩ [epoch] (139264, none) ⟨epoch, 0, 2, 1⟩ [] (by rfl)

/-- Claim C9: when both identities are out of range, the IDC bound is checked
first, so `NewIDGenerator` returns `ErrInvaildIDCID`. -/
theorem claim9_validation_order {idcID machineID : Int}
    (hidc : idcID < 0 ∨ maxIDCID < idcID)
    (hmach : machineID < 0 ∨ maxMachineID < machineID) :
    NewIDGenerator idcID machineID = Except.error GoError.ErrInvaildIDCID := by
  unfold NewIDGenerator
  rw [if_pos (by omega)]

/-- Witness for claim C9: both identities negative yields the IDC error. -/
theorem claim9_validation_order_witness :
    NewIDGenerator (-1) (-1) = Except.error GoError.ErrInvaildIDCID :=
  claim9_validation_order (by decide) (by decide)

/-- Claim C10 (counterexample): `-1` is not reserved for the failure path: a
successful call can also return `-1`. From the state minted at the pre-epoch
millisecond `epoch - 1` with sequence 4094 and both identities 31, the next
call in the same millisecond succeeds and its assembled int64 is exactly
`-1` (all 64 bits set). -/
theorem claim10_counterexample :
    Generate ⟨epoch - 1, 4094, 31, 31⟩ [epoch - 1] =
      some ((-1, none), ⟨epoch - 1, 4095, 31, 31⟩, []) := by decide

/-- Claim C10 (amended): on the clock-regression path `Generate` returns the
int64 value `-1` alongside `ErrClockBack`; and provided the state's fields
are within their widths and every pending clock reading lies in the 41-bit
timestamp range `[epoch, epoch + 2 ^ 41)`, every successful call returns a
nonnegative ID — never `-1` — so a caller inspecting only the integer can
distinguish the failure. -/
theorem claim10_sentinel (g : IDGenerator) (now : Int) (rest : List Int) :
    (now < g.lastMilli →
      Generate g (now :: rest) = some ((-1, some GoError.ErrClockBack), g, rest)) ∧
    (0 ≤ g.IDCID → g.IDCID ≤ maxIDCID → 0 ≤ g.machineID → g.machineID ≤ maxMachineID →
      0 ≤ g.sequenceID → g.sequenceID ≤ maxSequenceID →
      (∀ r ∈ now :: rest, epoch ≤ r ∧ r < epoch + 2 ^ 41) →
      ∀ id g' clock', Generate g (now :: rest) = some ((id, none), g', clock') →
        0 ≤ id ∧ id ≠ -1) := by
  constructor
  · intro h
    simp only [Generate]
    rw [if_pos h]
  · intro hidc0 hidc1 hmach0 hmach1 hseq0 hseq1 hrange id g' clock' h
    obtain ⟨hIdc, hMach, hid, hmem, hle, hcase⟩ := generate_success h
    have hr := hrange _ hmem
    have hseq' : 0 ≤ g'.sequenceID ∧ g'.sequenceID ≤ maxSequenceID := by
      rcases hcase with ⟨h0, -⟩ | ⟨h0, hb, -⟩
      · rw [h0, maxSequenceID_eq]
        norm_num
      · rw [add64_small hseq0 hseq1] at h0 hb
        rw [h0]
        omega
    have hnn : 0 ≤ id := by
      rw [hid, assembleID_eq_encode hr.1 hr.2 hidc0 hidc1 hmach0 hmach1
        hseq'.1 hseq'.2]
      unfold encode
      rw [unixMilliShift_eq, idcIDShift_eq, machineIDShift_eq]
      have h5 := hr.1
      nlinarith [hseq'.1, hidc0, hmach0, h5]
    exact ⟨hnn, by omega⟩

/-- Witness for the amended claim C10 at a concrete successful call. -/
theorem claim10_sentinel_witness : (0 : Int) ≤ 139264 ∧ (139264 : Int) ≠ -1 :=
  (claim10_sentinel ⟨-1, 0, 2, 1⟩ epoch []).2 (by decide) (by decide) (by decide)
    (by decide) (by decide) (by decide) (by decide) 139264 ⟨epoch, 0, 2, 1⟩ []
    (by rfl)

end Snowflake
